import Mathlib

/-!
Verification of the bigint arithmetic / primality / prime-search core of
`bigint-crypto-utils` (dist/bundles/esm.js), against its natural-language
specification.

Shallow embedding conventions:
* JavaScript `BigInt` values are `Int`; `/` and `%` on BigInt truncate toward
  zero, so they are embedded as `Int.tdiv` / `Int.tmod`.  Unsigned loop
  variables that the source guards to be non-negative are embedded as `Nat`
  (where `/` and `%` agree with the BigInt operators).
* JavaScript `throw new RangeError(msg)` becomes `Except BError`; the spec's
  error taxonomy distinguishes `InvalidArgument` (carrying the thrown
  message) from `NoInverseExists`.
* Source `while` / `do-while` loops are embedded as structurally recursive
  functions with an explicit fuel argument; every wrapper supplies fuel that
  probably exceeds the loop's iteration bound (proved where a theorem needs
  it), so the fuel-exhausted branch is unreachable on the wrapper's inputs.
* Randomness (crypto.getRandomValues) is an external capability: the byte
  buffers it would produce are passed in explicitly as `List Nat` arguments,
  so every theorem quantifies over all possible entropy.
-/

deriving instance DecidableEq for Except

namespace BCU

/-- Error taxonomy of the spec: `invalidArgument` models every
`RangeError(msg)` thrown on argument validation, `noInverseExists` models the
`RangeError` thrown by `modInv` when the extended gcd is not 1. -/
inductive BError where
  | invalidArgument (msg : String)
  | noInverseExists
deriving DecidableEq, Repr

/-- Result record of `eGcd`: `{ g: b, x: x, y: y }`. -/
structure Egcd where
  g : Int
  x : Int
  y : Int
deriving DecidableEq, Repr

/-- Source `abs(a)`: `(a >= 0) ? a : -a`. -/
def js_abs (a : Int) : Int :=
  if a ≥ 0 then a else -a

/-- Body of the `do { bits++ } while ((a >>= 1n) > 1n)` loop of `bitLength`.
`fuel` bounds the iteration count; `js_bitLength` passes `a.toNat + 1`,
which exceeds the number of halvings. -/
def bitLengthGo : Nat → Nat → Nat → Nat
  | 0, _, bits => bits
  | fuel + 1, a, bits =>
    let a2 := a / 2
    let bits2 := bits + 1
    if a2 > 1 then bitLengthGo fuel a2 bits2 else bits2

/-- Source `bitLength(a)`: returns 1 for `a == 1n`, otherwise counts arithmetic
right shifts until the value is at most 1 (so e.g. `bitLength 0 = 2`, exactly
as in the source). -/
def js_bitLength (a : Int) : Nat :=
  if a = 1 then 1 else bitLengthGo (a.toNat + 1) a.toNat 1

/-- Body of the `while (a !== 0n)` loop of `eGcd`.  The source guard
`a > 0, b > 0` keeps both loop variables non-negative, so they are carried
as `Nat`; `q = b / a` and `r = b % a` are BigInt truncated division and
remainder, which agree with `Nat` division on these values.  `fuel` strictly
exceeds `a`, which strictly decreases. -/
def eGcdLoop : Nat → Nat → Nat → Int → Int → Int → Int → Egcd
  | 0, _, b, x, y, _, _ => ⟨(b : Int), x, y⟩
  | fuel + 1, a, b, x, y, u, v =>
    if a = 0 then ⟨(b : Int), x, y⟩
    else
      let q : Nat := b / a
      let r : Nat := b % a
      let m : Int := x - u * (q : Int)
      let n : Int := y - v * (q : Int)
      eGcdLoop fuel r a u v m n

/-- Source `eGcd(a, b)`: throws `RangeError('a and b MUST be > 0')` unless
both arguments are positive, then runs the iterative extended Euclidean
loop starting from `x=0, y=1, u=1, v=0`. -/
def eGcd (a b : Int) : Except BError Egcd :=
  if a ≤ 0 ∨ b ≤ 0 then .error (.invalidArgument "a and b MUST be > 0")
  else .ok (eGcdLoop (a.toNat + 1) a.toNat b.toNat 0 1 1 0)

/-- Body of the `while ((x & 1n) === 0n) x >>= 1n` loops of `gcd` (strip all
factors of two).  The source runs these only on positive values; `fuel`
strictly exceeds the argument, so it never runs out there. -/
def oddPartGo : Nat → Nat → Nat
  | 0, a => a
  | fuel + 1, a => if a &&& 1 = 0 then oddPartGo fuel (a / 2) else a

/-- Body of the `while (((aAbs | bAbs) & 1n) === 0n)` loop of `gcd`: halve
both values and count the shared shift while both are even.  The source
reaches it only with `aAbs ≠ 0`, so the fuel `aAbs + bAbs + 1` suffices. -/
def gcdShiftLoop : Nat → Nat → Nat → Nat → Nat × Nat × Nat
  | 0, a, b, shift => (a, b, shift)
  | fuel + 1, a, b, shift =>
    if (a ||| b) &&& 1 = 0 then gcdShiftLoop fuel (a / 2) (b / 2) (shift + 1)
    else (a, b, shift)

/-- Body of the `do { ... } while (bAbs !== 0n)` subtraction loop of `gcd`:
strip factors of two from `b`, swap so that `a ≤ b`, subtract.  The source
enters it with `a` odd and `b ≥ 1`, for which the fuel `a + b` suffices. -/
def gcdLoop : Nat → Nat → Nat → Nat
  | 0, a, _ => a
  | fuel + 1, aIn, bIn =>
    let b1 := oddPartGo (bIn + 1) bIn
    let a2 := if aIn > b1 then b1 else aIn
    let b2 := if aIn > b1 then aIn else b1
    let b3 := b2 - a2
    if b3 ≠ 0 then gcdLoop fuel a2 b3 else a2

/-- Source `gcd(a, b)`: iterative binary (Stein) gcd on the absolute values;
returns the other operand's absolute value when one operand is zero, and
rescales by the shared power of two at the end (`aAbs << shift`). -/
def js_gcd (a b : Int) : Int :=
  let aAbs := a.natAbs
  let bAbs := b.natAbs
  if aAbs = 0 then (bAbs : Int)
  else if bAbs = 0 then (aAbs : Int)
  else
    let s := gcdShiftLoop (aAbs + bAbs + 1) aAbs bAbs 0
    let aOdd := oddPartGo (s.1 + 1) s.1
    let g := gcdLoop (aOdd + s.2.1 + 1) aOdd s.2.1
    ((g <<< s.2.2 : Nat) : Int)

/-- Source `lcm(a, b)`: `0` when both arguments are zero, otherwise
`abs((a / gcd(a, b)) * b)` with BigInt (truncated) division. -/
def js_lcm (a b : Int) : Int :=
  if a = 0 ∧ b = 0 then 0
  else js_abs ((Int.tdiv a (js_gcd a b)) * b)

/-- Value computed by `toZn(a, n)` after its `n > 0` guard:
`aZn = a % n` (truncated BigInt remainder), plus `n` when negative. -/
def toZnVal (a n : Int) : Int :=
  let aZn := Int.tmod a n
  if aZn < 0 then aZn + n else aZn

/-- Source `toZn(a, n)`: throws `RangeError('n must be > 0')` for a
non-positive modulus. -/
def toZn (a n : Int) : Except BError Int :=
  if n ≤ 0 then .error (.invalidArgument "n must be > 0")
  else .ok (toZnVal a n)

/-- Source `modInv(a, n)`: `eGcd(toZn(a, n), n)`, then throws (the spec's
`NoInverseExists`) when the gcd is not 1, else returns `toZn(x, n)`.
Exceptions from `toZn` and `eGcd` propagate. -/
def modInv (a n : Int) : Except BError Int := do
  let az ← toZn a n
  let egcd ← eGcd az n
  if egcd.g ≠ 1 then .error .noInverseExists
  else toZn egcd.x n

/-- Body of the `while (e > 0)` loop of `modPow` (right-to-left binary
exponentiation).  After the `n > 1` guard and the initial `toZn` reduction,
`b` and `r` stay in `[0, n)`, and `e` is a non-negative BigInt carried as
`Nat`.  `fuel` strictly exceeds `e`, which strictly decreases. -/
def modPowLoop : Nat → Int → Nat → Int → Int → Int
  | 0, _, _, _, r => r
  | fuel + 1, b, e, n, r =>
    if e > 0 then
      let r2 := if e % 2 = 1 then Int.tmod (r * b) n else r
      modPowLoop fuel (Int.tmod (b ^ 2) n) (e / 2) n r2
    else r

/-- Source `modPow(b, e, n)`: throws `RangeError('n must be > 0')` for
`n ≤ 0`, returns `0` for `n == 1`, reduces the base with `toZn`, and for a
negative exponent computes `modInv(modPow(b, abs(e), n), n)`.  The inner
recursive call `modPow(b, abs(e), n)` is inlined here: its guards pass
(`n > 1`) and `toZn` is the identity on the already-reduced base, so it is
exactly the binary-exponentiation loop below. -/
def modPow (b e n : Int) : Except BError Int :=
  if n ≤ 0 then .error (.invalidArgument "n must be > 0")
  else if n = 1 then .ok 0
  else
    let b2 := toZnVal b n
    if e < 0 then do
      let x := modPowLoop ((js_abs e).toNat + 1) b2 (js_abs e).toNat n 1
      modInv x n
    else .ok (modPowLoop (e.toNat + 1) b2 e.toNat n 1)

/-- Source `fromBuffer(buf)`: big-endian byte-buffer to BigInt,
`ret = (ret << 8n) + bi` (a left shift by 8 is multiplication by 256). -/
def fromBuffer (buf : List Nat) : Int :=
  buf.foldl (fun (ret : Int) (i : Nat) => ret * 256 + (i : Int)) 0

/-- Source `randBitsSync(bitLength, forceLength)` given the byte buffer
`bytes` that `randBytesSync` would have drawn from the entropy source
(`Math.ceil(bitLength / 8)` bytes, each < 256): zero the excess high bits of
the first byte, and when `force` is set, set the highest valid bit. -/
def randBitsSyncModel (bitLen : Nat) (force : Bool) (bytes : List Nat) : List Nat :=
  match bytes with
  | [] => []
  | b0 :: rest =>
    let r := bitLen % 8
    let b1 := if r ≠ 0 then b0 &&& (2 ^ r - 1) else b0
    let b2 := if force then b1 ||| (if r ≠ 0 then 2 ^ (r - 1) else 128) else b1
    b2 :: rest

/-- Body of the rejection-sampling `do { ... } while (rnd > interval)` loop of
`randBetween`: each element of `draws` is one byte buffer the entropy source
would yield; `none` means the supplied entropy prefix was exhausted before a
draw was accepted. -/
def randBetweenGo (interval mn : Int) (bitLen : Nat) : List (List Nat) → Option Int
  | [] => none
  | bytes :: rest =>
    let rnd := fromBuffer (randBitsSyncModel bitLen false bytes)
    if rnd > interval then randBetweenGo interval mn bitLen rest else some (rnd + mn)

/-- Source `randBetween(max, min)`: throws unless `max > min`, then draws
`bitLength(max - min)`-bit strings until one is at most the interval, and
returns it shifted by `min`. -/
def randBetweenModel (mx mn : Int) (draws : List (List Nat)) : Except BError (Option Int) :=
  if mx ≤ mn then .error (.invalidArgument "Arguments MUST be: max > min")
  else
    let interval := mx - mn
    let bitLen := js_bitLength interval
    .ok (randBetweenGo interval mn bitLen draws)

/-- Table of the first 250 odd primes tested by `_isProbablyPrime`,
transcribed from the source. -/
def firstPrimes : List Int := [
  3, 5, 7, 11, 13, 17, 19, 23, 29, 31, 37, 41, 43, 47, 53, 59, 61, 67, 71,
  73, 79, 83, 89, 97, 101, 103, 107, 109, 113, 127, 131, 137, 139, 149, 151,
  157, 163, 167, 173, 179, 181, 191, 193, 197, 199, 211, 223, 227, 229, 233,
  239, 241, 251, 257, 263, 269, 271, 277, 281, 283, 293, 307, 311, 313, 317,
  331, 337, 347, 349, 353, 359, 367, 373, 379, 383, 389, 397, 401, 409, 419,
  421, 431, 433, 439, 443, 449, 457, 461, 463, 467, 479, 487, 491, 499, 503,
  509, 521, 523, 541, 547, 557, 563, 569, 571, 577, 587, 593, 599, 601, 607,
  613, 617, 619, 631, 641, 643, 647, 653, 659, 661, 673, 677, 683, 691, 701,
  709, 719, 727, 733, 739, 743, 751, 757, 761, 769, 773, 787, 797, 809, 811,
  821, 823, 827, 829, 839, 853, 857, 859, 863, 877, 881, 883, 887, 907, 911,
  919, 929, 937, 941, 947, 953, 967, 971, 977, 983, 991, 997, 1009, 1013,
  1019, 1021, 1031, 1033, 1039, 1049, 1051, 1061, 1063, 1069, 1087, 1091,
  1093, 1097, 1103, 1109, 1117, 1123, 1129, 1151, 1153, 1163, 1171, 1181,
  1187, 1193, 1201, 1213, 1217, 1223, 1229, 1231, 1237, 1249, 1259, 1277,
  1279, 1283, 1289, 1291, 1297, 1301, 1303, 1307, 1319, 1321, 1327, 1361,
  1367, 1373, 1381, 1399, 1409, 1423, 1427, 1429, 1433, 1439, 1447, 1451,
  1453, 1459, 1471, 1481, 1483, 1487, 1489, 1493, 1499, 1511, 1523, 1531,
  1543, 1549, 1553, 1559, 1567, 1571, 1579, 1583, 1597]

/-- Prefilter loop of `_isProbablyPrime`:
`for (i = 0; i < firstPrimes.length && firstPrimes[i] ≤ w; i++)` returning
`true` on equality with a table prime and `false` on divisibility; `none`
means the loop ran off the table (or past `w`) without deciding. -/
def trialDivision (w : Int) : List Int → Option Bool
  | [] => none
  | p :: ps =>
    if p ≤ w then
      if w = p then some true
      else if Int.tmod w p = 0 then some false
      else trialDivision w ps
    else none

/-- Body of the `while (aux % 2n === 0n) { aux /= 2n; ++a }` loop of
`_isProbablyPrime` computing the 2-adic valuation of `w - 1`.  The source
reaches it with `w - 1 >= 2`, for which the fuel `aux + 1` suffices. -/
def twoAdicGo : Nat → Nat → Nat → Nat
  | 0, _, a => a
  | fuel + 1, aux, a => if aux % 2 = 0 then twoAdicGo fuel (aux / 2) (a + 1) else a

/-- Inner squaring loop of a Miller-Rabin round:
`while (j < a) { z = modPow(z, 2n, w); if (z === d) break; if (z === 1n)
return false; j++ }`.  `rem` is the remaining iteration count `a - j`
(the loop runs at most `a - 1` times starting from `j = 1`).  `none` encodes
the source's early `return false`; `some z` is the value of `z` after the
loop (by `break` or by exhausting `j`). -/
def mrInner (w d : Int) : Int → Nat → Except BError (Option Int)
  | z, 0 => .ok (some z)
  | z, rem + 1 => do
    let z2 ← modPow z 2 w
    if z2 = d then .ok (some z2)
    else if z2 = 1 then .ok none
    else mrInner w d z2 rem

/-- Witness do-loop of `_isProbablyPrime`:
`do { b = randBetween(d, 2n); z = modPow(b, m, w); ... } while
(--iterations !== 0)`.  `iterations` is carried as `Int`, exactly as the
source's post-decrement test behaves (starting from 0 it goes negative and
the test never fails).  One element of `draws` feeds the `randBetween`
rejection sampling of one round; when the supplied entropy runs out the
model answers `ok none` (no verdict). -/
def mrOuter (w d m : Int) (a : Nat) : Int → List (List (List Nat)) → Except BError (Option Bool)
  | _, [] => .ok none
  | iterations, roundDraws :: rest => do
    let ob ← randBetweenModel d 2 roundDraws
    match ob with
    | none => .ok none
    | some b => do
      let z ← modPow b m w
      if z = 1 ∨ z = d then
        if iterations - 1 ≠ 0 then mrOuter w d m a (iterations - 1) rest
        else .ok (some true)
      else do
        let oz ← mrInner w d z (a - 1)
        match oz with
        | none => .ok (some false)
        | some z2 =>
          if z2 ≠ d then .ok (some false)
          else
            if iterations - 1 ≠ 0 then mrOuter w d m a (iterations - 1) rest
            else .ok (some true)

/-- Source `_isProbablyPrime(w, iterations)`: prefilter (2 is prime, even or
1 is composite, trial division by the table), then decompose
`w - 1 = 2^a * m` with `m` odd and run the Miller-Rabin witness loop.
The parity test `(w & 1n) === 0n` is the Euclidean remainder `w % 2` (for
BigInt two's-complement `&`, bit 0 is the Euclidean parity also for negative
`w`). -/
def isProbablyPrimeModel (w : Int) (iterations : Int)
    (draws : List (List (List Nat))) : Except BError (Option Bool) :=
  if w = 2 then .ok (some true)
  else if w % 2 = 0 ∨ w = 1 then .ok (some false)
  else
    match trialDivision w firstPrimes with
    | some r => .ok (some r)
    | none =>
      let d := w - 1
      let a := twoAdicGo (d.toNat + 1) d.toNat 0
      let m := Int.tdiv d (2 ^ a)
      mrOuter w d m a iterations draws

/-- Candidate loop shared by `primeSync` and the no-worker fallback of
`prime`: `do { rnd = fromBuffer(randBitsSync(bitLength, true)) } while
(!_isProbablyPrime(rnd, iterations))`.  Each trial supplies the byte buffer
for the candidate and the witness entropy for its test; `ok none` means the
supplied entropy was exhausted without finding a probable prime. -/
def primeSyncGo (bitLen iterations : Int) :
    List (List Nat × List (List (List Nat))) → Except BError (Option Int)
  | [] => .ok none
  | (bytes, draws) :: rest => do
    let rnd := fromBuffer (randBitsSyncModel bitLen.toNat true bytes)
    let r ← isProbablyPrimeModel rnd iterations draws
    match r with
    | some true => .ok (some rnd)
    | some false => primeSyncGo bitLen iterations rest
    | none => .ok none

/-- Source `primeSync(bitLength, iterations)` (and the sequential fallback
inside `prime`): throws `RangeError('bitLength MUST be > 0')` for
`bitLength < 1`, otherwise runs the candidate loop. -/
def primeSyncModel (bitLen iterations : Int)
    (trials : List (List Nat × List (List (List Nat)))) : Except BError (Option Int) :=
  if bitLen < 1 then .error (.invalidArgument "bitLength MUST be > 0")
  else primeSyncGo bitLen iterations trials

/-- Coordinator state of the parallel path of `prime`: the pool of spawned
workers (`workerList`), the workers that have received `terminate()`, and
the promise cell (`resolve` writes it at most once - a settled JavaScript
promise ignores later `resolve` calls). -/
structure CoordState where
  workerList : List Nat
  terminated : List Nat
  result : Option Int
deriving DecidableEq, Repr

/-- Source `_onmessage(msg, newWorker)` of `prime`, as a transition on the
coordinator state for one delivered message `(isPrime, value)`: on a prime
report every pooled worker is terminated, the pool is emptied, and the
promise is resolved (a no-op if already resolved); on a composite report the
coordinator posts a fresh candidate back to the sender (swallowing errors if
it was already terminated), leaving the coordinator state unchanged. -/
def coordStep (st : CoordState) (msg : Bool × Int) : CoordState :=
  if msg.1 then
    { workerList := []
      terminated := st.terminated ++ st.workerList
      result := match st.result with | none => some msg.2 | some v => some v }
  else st

/-- Event-loop run of the coordinator: JavaScript delivers the worker
messages in some serial order `msgs` to `_onmessage`, starting from the
freshly spawned pool `ws` and an unresolved promise. -/
def runCoord (ws : List Nat) (msgs : List (Bool × Int)) : CoordState :=
  msgs.foldl coordStep { workerList := ws, terminated := [], result := none }

/-! ### Arithmetic helper lemmas -/

theorem BCU_neg_tmod (a b : Int) : Int.tmod (-a) b = -(Int.tmod a b) := by
  rw [Int.tmod_def, Int.tmod_def, Int.neg_tdiv]
  ring

theorem tmod_emod (a n : Int) : Int.tmod a n % n = a % n := by
  rw [Int.tmod_def, Int.sub_emod, Int.mul_emod_right, sub_zero,
    Int.emod_emod_of_dvd _ dvd_rfl]

/-- For a positive modulus, the sign-adjusted truncated remainder of `toZn`
is the Euclidean remainder. -/
theorem toZnVal_eq_emod (a n : Int) (hn : 0 < n) : toZnVal a n = a % n := by
  unfold toZnVal
  by_cases h : Int.tmod a n < 0
  · simp only [h, if_pos]
    have h1 : Int.tmod a n + n < n := by omega
    have h2 : 0 ≤ Int.tmod a n + n := by
      have h3 : Int.tmod (-a) n < n := Int.tmod_lt_of_pos (-a) hn
      rw [BCU_neg_tmod] at h3
      omega
    have h4 : (Int.tmod a n + n) % n = a % n := by
      rw [Int.add_emod, Int.emod_self, add_zero, tmod_emod,
        Int.emod_emod_of_dvd _ dvd_rfl]
    rw [← h4, Int.emod_eq_of_lt h2 h1]
  · simp only [h, if_neg, if_false]
    have h1 : Int.tmod a n < n := Int.tmod_lt_of_pos a hn
    have h2 : 0 ≤ Int.tmod a n := by omega
    rw [← tmod_emod a n, Int.emod_eq_of_lt h2 h1]

theorem toZnVal_nonneg (a n : Int) (hn : 0 < n) : 0 ≤ toZnVal a n := by
  rw [toZnVal_eq_emod a n hn]
  exact Int.emod_nonneg a (by omega)

theorem toZnVal_lt (a n : Int) (hn : 0 < n) : toZnVal a n < n := by
  rw [toZnVal_eq_emod a n hn]
  exact Int.emod_lt_of_pos a hn

theorem toNat_eq_natAbs_of_nonneg {a : Int} (h : 0 ≤ a) : a.toNat = a.natAbs := by
  omega

/-! ### Extended Euclid: loop invariant -/

/-- Loop invariant of `eGcdLoop`: with enough fuel, the Bezout combinations
carried in the four coefficient registers are preserved, so the loop ends on
`gcd` of the starting pair together with its Bezout certificate. -/
theorem eGcdLoop_succ (f a b : Nat) (x y u v : Int) :
    eGcdLoop (f + 1) a b x y u v =
      if a = 0 then ⟨(b : Int), x, y⟩
      else eGcdLoop f (b % a) a u v (x - u * ((b / a : Nat) : Int))
        (y - v * ((b / a : Nat) : Int)) := rfl

theorem eGcdLoop_spec (A B : Int) :
    ∀ (fuel a b : Nat) (x y u v : Int), a < fuel ->
    A * u + B * v = (a : Int) → A * x + B * y = (b : Int) ->
    (eGcdLoop fuel a b x y u v).g = (Nat.gcd a b : Int) ∧
      A * (eGcdLoop fuel a b x y u v).x + B * (eGcdLoop fuel a b x y u v).y =
        (eGcdLoop fuel a b x y u v).g := by
  intro fuel
  induction fuel with
  | zero => intro a b x y u v hfuel; omega
  | succ f ih =>
    intro a b x y u v hfuel huv hxy
    by_cases ha : a = 0
    · subst ha
      rw [eGcdLoop_succ, if_pos rfl]
      exact ⟨by rw [Nat.gcd_zero_left], hxy⟩
    · have hmod : b % a < a := Nat.mod_lt b (Nat.pos_of_ne_zero ha)
      have hrec := ih (b % a) a u v (x - u * ((b / a : Nat) : Int))
        (y - v * ((b / a : Nat) : Int)) (by omega) ?_ huv
      · rw [eGcdLoop_succ, if_neg ha]
        refine ⟨?_, hrec.2⟩
        rw [hrec.1, ← Nat.gcd_rec]
      · have hdm : (a : Int) * ((b / a : Nat) : Int) + ((b % a : Nat) : Int) = (b : Int) := by
          exact_mod_cast congrArg (Nat.cast : Nat → Int) (Nat.div_add_mod b a)
        have expand : A * (x - u * ((b / a : Nat) : Int)) + B * (y - v * ((b / a : Nat) : Int)) =
            (A * x + B * y) - (A * u + B * v) * ((b / a : Nat) : Int) := by ring
        rw [expand, hxy, huv, ← hdm]
        ring

/-- Shared specification of `eGcd` on positive inputs: the call succeeds and
returns the gcd with a valid Bezout identity. -/
theorem eGcd_ok_spec (a b : Int) (ha : 0 < a) (hb : 0 < b) :
    ∃ t, eGcd a b = .ok t ∧ a * t.x + b * t.y = t.g ∧ t.g = (Int.gcd a b : Int) := by
  have hguard : ¬(a ≤ 0 ∨ b ≤ 0) := by omega
  have hcast_a : ((a.toNat : Nat) : Int) = a := Int.toNat_of_nonneg (by omega)
  have hcast_b : ((b.toNat : Nat) : Int) = b := Int.toNat_of_nonneg (by omega)
  have hspec := eGcdLoop_spec a b (a.toNat + 1) a.toNat b.toNat 0 1 1 0
    (by omega) (by rw [hcast_a]; ring) (by rw [hcast_b]; ring)
  refine ⟨eGcdLoop (a.toNat + 1) a.toNat b.toNat 0 1 1 0, ?_, hspec.2, ?_⟩
  · simp only [eGcd, if_neg hguard]
  · rw [hspec.1, Int.gcd]
    rw [toNat_eq_natAbs_of_nonneg (by omega : (0:Int) ≤ a),
      toNat_eq_natAbs_of_nonneg (by omega : (0:Int) ≤ b)]

/-- C3: for every pair of integers `a > 0` and `b > 0`, `eGcd(a, b)` returns a
triple `(g, x, y)` such that `a*x + b*y = g` and `g = gcd(a, b)`; for `a <= 0`
or `b <= 0` it fails with InvalidArgument (`'a and b MUST be > 0'`). -/
theorem c3_eGcd_spec (a b : Int) :
    (0 < a → 0 < b ->
      ∃ t, eGcd a b = .ok t ∧ a * t.x + b * t.y = t.g ∧ t.g = (Int.gcd a b : Int)) ∧
    (a ≤ 0 ∨ b ≤ 0 → eGcd a b = .error (.invalidArgument "a and b MUST be > 0")) := by
  constructor
  · intro ha hb
    exact eGcd_ok_spec a b ha hb
  · intro h
    simp only [eGcd, if_pos h]

/-- Witness for C3 at the spec's concrete scenario `eGcd(12, 8)`:
the hypotheses hold and the returned triple is `g = 4 = gcd(12, 8)` with
`12 * 1 + 8 * (-1) = 4`. -/
theorem c3_eGcd_spec_witness :
    ((0:Int) < 12 ∧ (0:Int) < 8) ∧
    (∃ t, eGcd 12 8 = .ok t ∧ 12 * t.x + 8 * t.y = t.g ∧ t.g = (Int.gcd 12 8 : Int)) ∧
    ((-3:Int) ≤ 0 ∨ (8:Int) ≤ 0) ∧
    eGcd (-3) 8 = .error (.invalidArgument "a and b MUST be > 0") := by
  refine ⟨⟨by decide, by decide⟩, (c3_eGcd_spec 12 8).1 (by decide) (by decide), ?_, ?_⟩
  · left; decide
  · exact (c3_eGcd_spec (-3) 8).2 (by left; decide)

/-! ### Binary gcd: loop specifications -/

theorem and_one_eq_zero_iff (a : Nat) : a &&& 1 = 0 ↔ a % 2 = 0 := by
  rw [Nat.and_one_is_mod]

theorem or_and_one_eq_zero_iff (a b : Nat) :
    (a ||| b) &&& 1 = 0 ↔ a % 2 = 0 ∧ b % 2 = 0 := by
  rw [and_one_eq_zero_iff]
  have h : ((a ||| b) % 2 = 1) ↔ (a % 2 = 1 ∨ b % 2 = 1) := by
    have hb := Nat.testBit_or a b 0
    simp only [Nat.testBit_zero] at hb
    constructor
    · intro hx
      have h2 : (decide (a % 2 = 1) || decide (b % 2 = 1)) = true := by
        rw [← hb]
        simp [hx]
      simpa using h2
    · intro hx
      have h2 : (decide (a % 2 = 1) || decide (b % 2 = 1)) = true := by
        rcases hx with hx | hx <;> simp [hx]
      rw [← hb] at h2
      simpa using h2
  omega

theorem oddPartGo_succ (fuel a : Nat) :
    oddPartGo (fuel + 1) a = if a &&& 1 = 0 then oddPartGo fuel (a / 2) else a := rfl

/-- Specification of the strip-factors-of-two loop: on a positive input with
enough fuel it returns the odd part, a divisor with a power-of-two cofactor. -/
theorem oddPartGo_spec :
    ∀ (fuel a : Nat), 0 < a → a ≤ fuel →
    ∃ k, a = oddPartGo fuel a * 2 ^ k ∧ oddPartGo fuel a % 2 = 1 := by
  intro fuel
  induction fuel with
  | zero => intro a ha hf; omega
  | succ f ih =>
    intro a ha hf
    rw [oddPartGo_succ]
    by_cases h : a &&& 1 = 0
    · rw [if_pos h]
      rw [and_one_eq_zero_iff] at h
      have ha2 : 0 < a / 2 := by omega
      have hf2 : a / 2 ≤ f := by omega
      obtain ⟨k, hk, hodd⟩ := ih (a / 2) ha2 hf2
      exact ⟨k + 1, by rw [pow_succ, ← mul_assoc, ← hk]; omega, hodd⟩
    · rw [if_neg h]
      rw [and_one_eq_zero_iff] at h
      exact ⟨0, by omega, by omega⟩

theorem gcdShiftLoop_succ (fuel a b shift : Nat) :
    gcdShiftLoop (fuel + 1) a b shift =
      if (a ||| b) &&& 1 = 0 then gcdShiftLoop fuel (a / 2) (b / 2) (shift + 1)
      else (a, b, shift) := rfl

/-- Specification of the shared-shift loop: it factors the largest common
power of two out of both operands (counting it in the shift), ending with a
pair that is not both even. -/
theorem gcdShiftLoop_spec :
    ∀ (fuel a b s : Nat), 0 < a → a ≤ fuel →
    ∃ k, a = (gcdShiftLoop fuel a b s).1 * 2 ^ k ∧
      b = (gcdShiftLoop fuel a b s).2.1 * 2 ^ k ∧
      (gcdShiftLoop fuel a b s).2.2 = s + k ∧
      ¬((gcdShiftLoop fuel a b s).1 % 2 = 0 ∧ (gcdShiftLoop fuel a b s).2.1 % 2 = 0) ∧
      0 < (gcdShiftLoop fuel a b s).1 := by
  intro fuel
  induction fuel with
  | zero => intro a b s ha hf; omega
  | succ f ih =>
    intro a b s ha hf
    rw [gcdShiftLoop_succ]
    by_cases h : (a ||| b) &&& 1 = 0
    · rw [if_pos h]
      rw [or_and_one_eq_zero_iff] at h
      have ha2 : 0 < a / 2 := by omega
      have hf2 : a / 2 ≤ f := by omega
      obtain ⟨k, hk1, hk2, hk3, hk4, hk5⟩ := ih (a / 2) (b / 2) (s + 1) ha2 hf2
      refine ⟨k + 1, ?_, ?_, by omega, hk4, hk5⟩
      · rw [pow_succ, ← mul_assoc, ← hk1]; omega
      · rw [pow_succ, ← mul_assoc, ← hk2]; omega
    · rw [if_neg h]
      rw [or_and_one_eq_zero_iff] at h
      exact ⟨0, by simp, by simp, by simp, by simpa using h, by simpa using ha⟩

theorem coprime_two_pow_of_odd {a : Nat} (k : Nat) (h : a % 2 = 1) :
    Nat.Coprime (2 ^ k) a := by
  refine Nat.Coprime.pow_left k ?_
  rw [Nat.Prime.coprime_iff_not_dvd Nat.prime_two]
  omega

/-- Specification of the subtraction loop of the binary gcd: entered with `a`
odd and `b` positive and given fuel at least `a + b`, it computes their gcd. -/
theorem gcdLoop_spec :
    ∀ (fuel a b : Nat), a % 2 = 1 → 0 < b → a + b ≤ fuel →
    gcdLoop fuel a b = Nat.gcd a b := by
  intro fuel
  induction fuel with
  | zero => intro a b ha hb hf; omega
  | succ f ih =>
    intro a b ha hb hf
    obtain ⟨k, hk, hodd⟩ := oddPartGo_spec (b + 1) b hb (by omega)
    set b1 := oddPartGo (b + 1) b with hb1
    have hstep : gcdLoop (f + 1) a b =
        if (if a > b1 then a else b1) - (if a > b1 then b1 else a) ≠ 0 then
          gcdLoop f (if a > b1 then b1 else a)
            ((if a > b1 then a else b1) - (if a > b1 then b1 else a))
        else (if a > b1 then b1 else a) := rfl
    rw [hstep]
    have hb1pos : 0 < b1 := by omega
    have hb1le : b1 ≤ b := by
      calc b1 ≤ b1 * 2 ^ k := Nat.le_mul_of_pos_right b1 (Nat.pos_pow_of_pos k (by omega))
      _ = b := hk.symm
    have hgcd1 : Nat.gcd a b = Nat.gcd a b1 := by
      rw [hk, Nat.Coprime.gcd_mul_right_cancel_right b1 (coprime_two_pow_of_odd k ha)]
    by_cases hcmp : a > b1
    · simp only [if_pos hcmp]
      have hsub : a - b1 ≠ 0 := by omega
      rw [if_pos hsub]
      have hrec := ih b1 (a - b1) hodd (by omega) (by omega)
      rw [hrec, Nat.gcd_sub_self_right (by omega : b1 ≤ a), Nat.gcd_comm, hgcd1]
    · simp only [if_neg hcmp]
      by_cases hsub : b1 - a ≠ 0
      · rw [if_pos hsub]
        have hrec := ih a (b1 - a) ha (by omega) (by omega)
        rw [hrec, Nat.gcd_sub_self_right (by omega : a ≤ b1), hgcd1]
      · rw [if_neg hsub]
        have heq : b1 = a := by omega
        rw [hgcd1, heq, Nat.gcd_self]

/-- Main specification of the source binary `gcd`: it computes the gcd of the
absolute values on every pair of integers. -/
theorem js_gcd_eq (a b : Int) : js_gcd a b = (Nat.gcd a.natAbs b.natAbs : Int) := by
  simp only [js_gcd]
  by_cases ha : a.natAbs = 0
  · rw [if_pos ha, ha, Nat.gcd_zero_left]
  · rw [if_neg ha]
    by_cases hb : b.natAbs = 0
    · rw [if_pos hb, hb, Nat.gcd_zero_right]
    · rw [if_neg hb]
      obtain ⟨k, hk1, hk2, hk3, hk4, hk5⟩ :=
        gcdShiftLoop_spec (a.natAbs + b.natAbs + 1) a.natAbs b.natAbs 0
          (by omega) (by omega)
      set t := gcdShiftLoop (a.natAbs + b.natAbs + 1) a.natAbs b.natAbs 0 with ht
      obtain ⟨j, hj1, hj2⟩ := oddPartGo_spec (t.1 + 1) t.1 hk5 (by omega)
      set a1 := oddPartGo (t.1 + 1) t.1 with ha1
      have htb : 0 < t.2.1 := by
        rcases Nat.eq_zero_or_pos t.2.1 with h | h
        · rw [h, zero_mul] at hk2; omega
        · exact h
      have hloop := gcdLoop_spec (a1 + t.2.1 + 1) a1 t.2.1 hj2 htb (by omega)
      rw [hloop]
      have hmid : Nat.gcd a1 t.2.1 = Nat.gcd t.1 t.2.1 := by
        by_cases hpar : t.1 % 2 = 1
        · have hj0 : j = 0 := by
            by_contra hne
            obtain ⟨j2, rfl⟩ : ∃ j2, j = j2 + 1 := ⟨j - 1, by omega⟩
            rw [pow_succ, ← mul_assoc] at hj1
            omega
          rw [hj0, pow_zero, mul_one] at hj1
          rw [hj1]
        · have hbodd : t.2.1 % 2 = 1 := by omega
          rw [hj1, Nat.Coprime.gcd_mul_right_cancel a1 (coprime_two_pow_of_odd j hbodd)]
      have hfinal : Nat.gcd t.1 t.2.1 * 2 ^ k = Nat.gcd a.natAbs b.natAbs := by
        rw [hk1, hk2, Nat.gcd_mul_right]
      rw [Nat.shiftLeft_eq, hmid, hk3, Nat.zero_add, hfinal]

theorem js_abs_eq (a : Int) : js_abs a = (a.natAbs : Int) := by
  unfold js_abs
  rw [← Int.abs_eq_natAbs, abs]
  split <;> omega

/-- C7: for all integers `a` and `b`, `gcd(a, b) = gcd(b, a)`;
`gcd(a, 0) = abs(a)`; and the result of `gcd` is always non-negative. -/
theorem c7_gcd_alg (a b : Int) :
    js_gcd a b = js_gcd b a ∧ js_gcd a 0 = js_abs a ∧ 0 ≤ js_gcd a b := by
  refine ⟨?_, ?_, ?_⟩
  · rw [js_gcd_eq, js_gcd_eq, Nat.gcd_comm]
  · rw [js_gcd_eq, js_abs_eq]
    norm_num
  · rw [js_gcd_eq]
    exact Int.natCast_nonneg _

/-- Counterexample to C5 as stated: `lcm(5, 0) = 0` although the inputs are
not both zero. -/
theorem c5_lcm_counterexample :
    js_lcm 5 0 = 0 ∧ ((5:Int) ≠ 0 ∨ (0:Int) ≠ 0) := by
  constructor
  · decide
  · left; decide

/-- C5 (amended): `lcm(a, b)` equals `abs((a / gcd(a, b)) * b)` (with the
source's zero guard agreeing with this formula under truncated division by
zero), and `lcm(a, b) = 0` exactly when `a = 0` or `b = 0` - not only when
both inputs are zero. -/
theorem c5_lcm_amended (a b : Int) :
    js_lcm a b = js_abs (Int.tdiv a (js_gcd a b) * b) ∧
    (js_lcm a b = 0 ↔ a = 0 ∨ b = 0) := by
  constructor
  · unfold js_lcm
    by_cases h : a = 0 ∧ b = 0
    · rw [if_pos h, h.1, h.2, Int.zero_tdiv, zero_mul]
      decide
    · rw [if_neg h]
  · constructor
    · intro h0
      by_contra hc
      push_neg at hc
      obtain ⟨ha, hb⟩ := hc
      have hguard : ¬(a = 0 ∧ b = 0) := by tauto
      rw [js_lcm, if_neg hguard, js_abs_eq] at h0
      have h1 : (Int.tdiv a (js_gcd a b) * b).natAbs = 0 := by exact_mod_cast h0
      rw [Int.natAbs_eq_zero] at h1
      rcases mul_eq_zero.mp h1 with h2 | h2
      · have hgdvd : js_gcd a b ∣ a := by
          rw [js_gcd_eq]
          exact Int.dvd_natAbs.mp (Int.natCast_dvd_natCast.mpr (Nat.gcd_dvd_left _ _))
        have := Int.tdiv_mul_cancel hgdvd
        rw [h2, zero_mul] at this
        exact ha this.symm
      · exact hb h2
    · intro h
      rcases h with h | h
      · subst h
        unfold js_lcm
        by_cases hb : b = 0
        · rw [if_pos ⟨rfl, hb⟩]
        · rw [if_neg (by tauto), Int.zero_tdiv, zero_mul]
          decide
      · subst h
        unfold js_lcm
        by_cases ha : a = 0
        · rw [if_pos ⟨ha, rfl⟩]
        · rw [if_neg (by tauto), mul_zero]
          decide

/-! ### modPow -/

theorem modPowLoop_succ (f : Nat) (b : Int) (e : Nat) (n r : Int) :
    modPowLoop (f + 1) b e n r =
      if e > 0 then
        modPowLoop f (Int.tmod (b ^ 2) n) (e / 2) n
          (if e % 2 = 1 then Int.tmod (r * b) n else r)
      else r := rfl

/-- Range invariant of the binary-exponentiation loop: with a positive
modulus and non-negative base and accumulator below the modulus, the result
stays in `[0, n)`. -/
theorem modPowLoop_bounds :
    ∀ (fuel : Nat) (b : Int) (e : Nat) (n r : Int), 0 < n → 0 ≤ b →
      0 ≤ r → r < n →
      0 ≤ modPowLoop fuel b e n r ∧ modPowLoop fuel b e n r < n := by
  intro fuel
  induction fuel with
  | zero => intro b e n r hn hb hr hrn; exact ⟨hr, hrn⟩
  | succ f ih =>
    intro b e n r hn hb hr hrn
    rw [modPowLoop_succ]
    by_cases he : e > 0
    · rw [if_pos he]
      refine ih _ _ _ _ hn (Int.tmod_nonneg n (by positivity)) ?_ ?_
      · by_cases hpar : e % 2 = 1
        · rw [if_pos hpar]
          exact Int.tmod_nonneg n (by positivity)
        · rw [if_neg hpar]; exact hr
      · by_cases hpar : e % 2 = 1
        · rw [if_pos hpar]
          exact Int.tmod_lt_of_pos _ hn
        · rw [if_neg hpar]; exact hrn
    · rw [if_neg he]; exact ⟨hr, hrn⟩

/-- C4: `modPow(b, e, n)` requires `n > 0` (else InvalidArgument) and returns
`0` when `n = 1`; for every base `b`, every exponent `e >= 0` and every
modulus `n > 1` the result lies in `[0, n)`, and `modPow(b, 0, n) = 1`. -/
theorem c4_modPow_spec (b e n : Int) :
    (n ≤ 0 → modPow b e n = .error (.invalidArgument "n must be > 0")) ∧
    (n = 1 → modPow b e n = .ok 0) ∧
    (0 ≤ e → 1 < n → ∃ v, modPow b e n = .ok v ∧ 0 ≤ v ∧ v < n) ∧
    (1 < n → modPow b 0 n = .ok 1) := by
  refine ⟨?_, ?_, ?_, ?_⟩
  · intro h
    rw [modPow, if_pos h]
  · intro h
    subst h
    rw [modPow, if_neg (by omega), if_pos rfl]
  · intro he hn
    have hneg : ¬e < 0 := by omega
    rw [modPow, if_neg (by omega), if_neg (by omega)]
    simp only [if_neg hneg]
    refine ⟨_, rfl, ?_⟩
    exact modPowLoop_bounds (e.toNat + 1) (toZnVal b n) e.toNat n 1 (by omega)
      (toZnVal_nonneg b n (by omega)) (by omega) (by omega)
  · intro hn
    rw [modPow, if_neg (by omega), if_neg (by omega)]
    norm_num [modPowLoop]

/-- Witness for C4 at the spec's concrete scenario `modPow(4, 13, 497) = 445`
plus the guard and `n = 1` cases. -/
theorem c4_modPow_spec_witness :
    ((0:Int) ≤ 0 ∧ modPow 5 3 0 = .error (.invalidArgument "n must be > 0")) ∧
    ((1:Int) = 1 ∧ modPow 7 (-2) 1 = .ok 0) ∧
    ((0:Int) ≤ 13 ∧ (1:Int) < 497 ∧ ∃ v, modPow 4 13 497 = .ok v ∧ 0 ≤ v ∧ v < 497) ∧
    ((1:Int) < 9 ∧ modPow 5 0 9 = .ok 1) := by
  refine ⟨⟨by decide, (c4_modPow_spec 5 3 0).1 (by decide)⟩,
    ⟨rfl, (c4_modPow_spec 7 (-2) 1).2.1 rfl⟩,
    ⟨by decide, by decide, (c4_modPow_spec 4 13 497).2.2.1 (by decide) (by decide)⟩,
    ⟨by decide, (c4_modPow_spec 5 0 9).2.2.2 (by decide)⟩⟩

/-! ### modInv -/

/-- C10: for every modulus `n > 0` and every integer `a` that is a multiple
of `n` (i.e. `toZn(a, n) = 0`), `modInv(a, n)` fails with the InvalidArgument
error raised by `eGcd` (`'a and b MUST be > 0'`), never with NoInverseExists. -/
theorem c10_modInv_multiple (a n : Int) (hn : 0 < n) (hz : toZnVal a n = 0) :
    modInv a n = .error (.invalidArgument "a and b MUST be > 0") := by
  rw [modInv, toZn, if_neg (by omega), hz]
  rfl

/-- Witness for C10 at `a = 6`, `n = 3` (a multiple of the modulus). -/
theorem c10_modInv_multiple_witness :
    ((0:Int) < 3 ∧ toZnVal 6 3 = 0) ∧
    modInv 6 3 = .error (.invalidArgument "a and b MUST be > 0") :=
  ⟨⟨by decide, by decide⟩, c10_modInv_multiple 6 3 (by decide) (by decide)⟩

/-- Euclidean reduction does not change the gcd with the modulus. -/
theorem gcd_emod_left (a n : Int) : Int.gcd (a % n) n = Int.gcd a n := by
  refine Nat.dvd_antisymm ?_ ?_
  · rw [← Int.natCast_dvd_natCast]
    refine Int.dvd_gcd ?_ Int.gcd_dvd_right
    have h := Int.emod_add_ediv a n
    calc (Int.gcd (a % n) n : Int) ∣ a % n + n * (a / n) :=
          dvd_add Int.gcd_dvd_left (Int.gcd_dvd_right.mul_right _)
    _ = a := h
  · rw [← Int.natCast_dvd_natCast]
    refine Int.dvd_gcd ?_ Int.gcd_dvd_right
    have h : a % n = a - n * (a / n) := by
      have := Int.emod_add_ediv a n
      omega
    rw [h]
    exact dvd_sub Int.gcd_dvd_left (Int.gcd_dvd_right.mul_right _)

/-- Counterexample to C6 as stated: with modulus `n = 1 > 0` every integer is
coprime to `n`, yet `modInv(1, 1)` throws InvalidArgument (from `eGcd`,
because `toZn(1, 1) = 0`) instead of returning an inverse. -/
theorem c6_modInv_counterexample :
    (0:Int) < 1 ∧ Int.gcd 1 1 = 1 ∧
    modInv 1 1 = .error (.invalidArgument "a and b MUST be > 0") := by
  refine ⟨by decide, by decide, by decide⟩

/-- C6 (amended): for every integer `a` coprime to a modulus `n > 1`,
`modInv(a, n)` returns a value `t` with `a * t mod n = 1`.  (The claim's
`n > 0` fails only at `n = 1`, where the `eGcd(0, 1)` call always throws.) -/
theorem c6_modInv_amended (a n : Int) (hn : 1 < n) (hco : Int.gcd a n = 1) :
    ∃ t, modInv a n = .ok t ∧ (a * t) % n = 1 := by
  have hn0 : 0 < n := by omega
  set az := toZnVal a n with haz
  have hazmod : az = a % n := toZnVal_eq_emod a n hn0
  have haznn : 0 ≤ az := toZnVal_nonneg a n hn0
  have hazne : az ≠ 0 := by
    intro h0
    have hdvd : n ∣ a := by
      refine Int.dvd_of_emod_eq_zero ?_
      rw [← hazmod, h0]
    have hdn : n.natAbs ∣ a.natAbs := Int.natAbs_dvd_natAbs.mpr hdvd
    have : Int.gcd a n = n.natAbs := Nat.gcd_eq_right hdn
    omega
  obtain ⟨t, hok, hbez, hg⟩ := eGcd_ok_spec az n (by omega) hn0
  have hgcd : Int.gcd az n = Int.gcd a n := by
    rw [hazmod]
    exact gcd_emod_left a n
  have hg1 : t.g = 1 := by
    rw [hg, hgcd, hco]
    rfl
  have hres : modInv a n = .ok (toZnVal t.x n) := by
    rw [modInv, toZn, if_neg (by omega)]
    show (eGcd az n >>= fun egcd =>
      if egcd.g ≠ 1 then Except.error BError.noInverseExists
      else toZn egcd.x n) = _
    rw [hok]
    show (if t.g ≠ 1 then Except.error BError.noInverseExists else toZn t.x n) = _
    rw [if_neg (by rw [hg1]; exact fun h => h rfl), toZn, if_neg (by omega)]
  refine ⟨toZnVal t.x n, hres, ?_⟩
  have hxz : toZnVal t.x n = t.x % n := toZnVal_eq_emod t.x n hn0
  rw [hxz]
  have step1 : a * (t.x % n) % n = az * t.x % n := by
    rw [Int.mul_emod a (t.x % n) n, Int.emod_emod_of_dvd _ dvd_rfl,
      Int.mul_emod az t.x n, ← hazmod]
    congr 1
    rw [hazmod, Int.emod_emod_of_dvd _ dvd_rfl]
  have step2 : az * t.x = 1 - n * t.y := by
    have := hbez
    rw [hg1] at this
    omega
  rw [step1, step2, Int.sub_emod, Int.mul_emod_right, sub_zero,
    Int.emod_emod_of_dvd _ dvd_rfl, Int.emod_eq_of_lt (by omega) (by omega)]

/-- Witness for C6 (amended) at the spec's concrete scenario
`modInv(4, 7) = 2` with `4 * 2 mod 7 = 1`. -/
theorem c6_modInv_amended_witness :
    ((1:Int) < 7 ∧ Int.gcd 4 7 = 1) ∧
    ∃ t, modInv 4 7 = .ok t ∧ (4 * t) % 7 = 1 :=
  ⟨⟨by decide, by decide⟩, c6_modInv_amended 4 7 (by decide) (by decide)⟩

/-! ### The witness draw of a Miller-Rabin round (C1) -/

/-- C1 refutation: the witness draw of a Miller-Rabin round is
`randBetween(d, 2n)` with `d = w - 1`, whose inclusive range is `[2, w-1]`.
For `w = 1601` (the smallest candidate that reaches the witness loop) the
entropy bytes `[6, 62]` are accepted by the rejection sampler and produce the
witness `b = 1600 = w - 1`, which lies outside the claimed interval
`[2, w-2]`: the in-code FIPS 186-4 comment (steps 4.1-4.2) requires
`1 < b < w-1`, but the code never rejects `b = w - 1`. -/
theorem c1_randBetween_draw_exceeds_claim :
    randBetweenModel (1601 - 1) 2 [[6, 62]] = .ok (some 1600) ∧
    ¬((1600:Int) ≤ 1601 - 2) := by
  constructor
  · decide
  · decide

/-! ### Parallel coordinator (C8) -/

theorem coordStep_terminated_sub (st : CoordState) (m : Bool × Int) :
    st.terminated ⊆ (coordStep st m).terminated := by
  unfold coordStep
  by_cases h : m.1
  · rw [if_pos h]
    exact List.subset_append_left _ _
  · rw [if_neg h]
    exact fun x hx => hx

theorem runFrom_terminated_mono :
    ∀ (msgs : List (Bool × Int)) (st : CoordState),
    st.terminated ⊆ (msgs.foldl coordStep st).terminated := by
  intro msgs
  induction msgs with
  | nil => intro st; exact fun x hx => hx
  | cons m rest ih =>
    intro st
    exact fun x hx => ih (coordStep st m) (coordStep_terminated_sub st m hx)

theorem runFrom_result_frozen :
    ∀ (msgs : List (Bool × Int)) (st : CoordState) (v : Int),
    st.result = some v → (msgs.foldl coordStep st).result = some v := by
  intro msgs
  induction msgs with
  | nil => intro st v h; exact h
  | cons m rest ih =>
    intro st v h
    refine ih (coordStep st m) v ?_
    unfold coordStep
    by_cases hm : m.1
    · rw [if_pos hm]
      simp only [h]
    · rw [if_neg hm]
      exact h

theorem runFrom_result_first_prime :
    ∀ (msgs : List (Bool × Int)) (st : CoordState) (p : Bool × Int),
    List.find? (fun m => m.1) msgs = some p → st.result = none →
    (msgs.foldl coordStep st).result = some p.2 := by
  intro msgs
  induction msgs with
  | nil => intro st p hf; simp at hf
  | cons m rest ih =>
    intro st p hf hres
    by_cases hm : m.1
    · rw [List.find?_cons_of_pos _ (by simpa using hm)] at hf
      cases hf
      refine runFrom_result_frozen rest (coordStep st m) m.2 ?_
      unfold coordStep
      rw [if_pos hm]
      simp only [hres]
    · rw [List.find?_cons_of_neg _ (by simpa using hm)] at hf
      refine ih (coordStep st m) p hf ?_
      unfold coordStep
      rw [if_neg hm]
      exact hres

theorem runFrom_workerList_empty :
    ∀ (msgs : List (Bool × Int)) (st : CoordState),
    st.workerList = [] → (msgs.foldl coordStep st).workerList = [] := by
  intro msgs
  induction msgs with
  | nil => intro st h; exact h
  | cons m rest ih =>
    intro st h
    refine ih (coordStep st m) ?_
    unfold coordStep
    by_cases hm : m.1
    · rw [if_pos hm]
    · rw [if_neg hm]
      exact h

theorem runFrom_prime_empties :
    ∀ (msgs : List (Bool × Int)) (st : CoordState) (p : Bool × Int),
    List.find? (fun m => m.1) msgs = some p →
    (msgs.foldl coordStep st).workerList = [] := by
  intro msgs
  induction msgs with
  | nil => intro st p hf; simp at hf
  | cons m rest ih =>
    intro st p hf
    by_cases hm : m.1
    · refine runFrom_workerList_empty rest (coordStep st m) ?_
      unfold coordStep
      rw [if_pos hm]
    · rw [List.find?_cons_of_neg _ (by simpa using hm)] at hf
      exact ih (coordStep st m) p hf

theorem runFrom_prime_terminates_all :
    ∀ (msgs : List (Bool × Int)) (st : CoordState) (p : Bool × Int) (w : Nat),
    List.find? (fun m => m.1) msgs = some p → w ∈ st.workerList →
    w ∈ (msgs.foldl coordStep st).terminated := by
  intro msgs
  induction msgs with
  | nil => intro st p w hf; simp at hf
  | cons m rest ih =>
    intro st p w hf hw
    by_cases hm : m.1
    · refine runFrom_terminated_mono rest (coordStep st m) ?_
      unfold coordStep
      rw [if_pos hm]
      exact List.mem_append_right _ hw
    · rw [List.find?_cons_of_neg _ (by simpa using hm)] at hf
      refine ih (coordStep st m) p w hf ?_
      unfold coordStep
      rw [if_neg hm]
      exact hw

theorem runFrom_no_prime :
    ∀ (msgs : List (Bool × Int)) (st : CoordState),
    (∀ m ∈ msgs, m.1 = false) → msgs.foldl coordStep st = st := by
  intro msgs
  induction msgs with
  | nil => intro st _; rfl
  | cons m rest ih =>
    intro st h
    have hm : m.1 = false := h m (List.mem_cons_self m rest)
    have hstep : coordStep st m = st := by
      unfold coordStep
      rw [if_neg (by simp [hm])]
    rw [List.foldl_cons, hstep]
    exact ih st (fun x hx => h x (List.mem_cons_of_mem m hx))

theorem runFrom_result_some :
    ∀ (msgs : List (Bool × Int)) (st : CoordState) (v : Int),
    (msgs.foldl coordStep st).result = some v →
    st.result = some v ∨ ∃ m ∈ msgs, m.1 = true ∧ m.2 = v := by
  intro msgs
  induction msgs with
  | nil => intro st v h; exact Or.inl h
  | cons m rest ih =>
    intro st v h
    rw [List.foldl_cons] at h
    rcases ih (coordStep st m) v h with h2 | h2
    · unfold coordStep at h2
      by_cases hm : m.1
      · rw [if_pos hm] at h2
        rcases hres : st.result with _ | v0
        · rw [hres] at h2
          simp only at h2
          refine Or.inr ⟨m, List.mem_cons_self m rest, hm, ?_⟩
          cases h2
          rfl
        · rw [hres] at h2
          simp only at h2
          exact Or.inl h2
      · rw [if_neg hm] at h2
        exact Or.inl h2
    · obtain ⟨m2, hmem, hm2⟩ := h2
      exact Or.inr ⟨m2, List.mem_cons_of_mem m hmem, hm2⟩

/-- C8: in the parallel prime search, the first Prime report terminates every
pooled task and empties the pool, the search resolves exactly once with that
report's value (the promise ignores any later Prime report), and a run with
only Composite reports never resolves. -/
theorem c8_first_prime_wins (ws : List Nat) (msgs : List (Bool × Int)) :
    ((∀ m ∈ msgs, m.1 = false) → (runCoord ws msgs).result = none) ∧
    (∀ p, List.find? (fun m => m.1) msgs = some p →
      (runCoord ws msgs).result = some p.2 ∧
      (runCoord ws msgs).workerList = [] ∧
      ∀ w ∈ ws, w ∈ (runCoord ws msgs).terminated) := by
  constructor
  · intro h
    rw [runCoord, runFrom_no_prime msgs _ h]
  · intro p hf
    refine ⟨runFrom_result_first_prime msgs _ p hf rfl,
      runFrom_prime_empties msgs _ p hf,
      fun w hw => runFrom_prime_terminates_all msgs _ p w hf hw⟩

/-- Witness for C8: a pool of two workers and a message sequence whose first
Prime report carries value 7; the coordinator resolves to 7, empties the
pool, and has terminated both workers, although a later Prime report carried
value 9. -/
theorem c8_first_prime_wins_witness :
    (List.find? (fun m => m.1) [(false, 5), (true, 7), (true, 9)] = some (true, 7)) ∧
    (runCoord [0, 1] [(false, 5), (true, 7), (true, 9)]).result = some 7 ∧
    (runCoord [0, 1] [(false, 5), (true, 7), (true, 9)]).workerList = [] ∧
    ∀ w ∈ [0, 1], w ∈ (runCoord [0, 1] [(false, 5), (true, 7), (true, 9)]).terminated := by
  refine ⟨by decide, ?_⟩
  have h := (c8_first_prime_wins [0, 1] [(false, 5), (true, 7), (true, 9)]).2
    (true, 7) (by decide)
  exact h

/-! ### Random bit strings with a forced top bit (C2) -/

theorem fromBuffer_foldl (l : List Nat) :
    ∀ (acc : Int), l.foldl (fun (ret : Int) (i : Nat) => ret * 256 + (i : Int)) acc =
      acc * 256 ^ l.length +
        l.foldl (fun (ret : Int) (i : Nat) => ret * 256 + (i : Int)) 0 := by
  induction l with
  | nil => intro acc; simp
  | cons x t ih =>
    intro acc
    simp only [List.foldl_cons, List.length_cons]
    rw [ih (acc * 256 + (x : Int)), ih ((0:Int) * 256 + (x : Int))]
    ring

theorem fromBuffer_tail_bounds (l : List Nat) (hb : ∀ x ∈ l, x < 256) :
    0 ≤ l.foldl (fun (ret : Int) (i : Nat) => ret * 256 + (i : Int)) 0 ∧
      l.foldl (fun (ret : Int) (i : Nat) => ret * 256 + (i : Int)) 0 < 256 ^ l.length := by
  induction l with
  | nil => exact ⟨le_refl 0, by norm_num⟩
  | cons x t ih =>
    obtain ⟨ih1, ih2⟩ := ih (fun y hy => hb y (List.mem_cons_of_mem x hy))
    have hx : x < 256 := hb x (List.mem_cons_self x t)
    simp only [List.foldl_cons, List.length_cons]
    rw [fromBuffer_foldl t ((0:Int) * 256 + (x : Int))]
    have hxc : ((x : Int) + 1) ≤ 256 := by exact_mod_cast hx
    have hp : (0:Int) < 256 ^ t.length := by positivity
    constructor
    · have h0 : (0:Int) ≤ (x : Int) * 256 ^ t.length := by positivity
      have h3 : ((0:Int) * 256 + (x : Int)) * 256 ^ t.length = (x : Int) * 256 ^ t.length := by
        ring
      omega
    · have h1 : ((0:Int) * 256 + (x : Int)) * 256 ^ t.length ≤ (255:Int) * 256 ^ t.length := by
        have hxx : ((x : Int)) ≤ 255 := by omega
        nlinarith
      have h2 : (256:Int) ^ (t.length + 1) = 256 * 256 ^ t.length := by ring
      omega

/-- Bounds on the buffer-to-integer conversion by bounds on the leading
byte: `lo ≤ b2 < hi` gives `lo * 256^k ≤ fromBuffer (b2 :: rest) < hi * 256^k`. -/
theorem fromBuffer_head_bounds (b2 : Nat) (rest : List Nat) (lo hi : Nat)
    (hlo : lo ≤ b2) (hhi : b2 < hi) (hrest : ∀ x ∈ rest, x < 256) :
    (lo : Int) * 256 ^ rest.length ≤ fromBuffer (b2 :: rest) ∧
      fromBuffer (b2 :: rest) < (hi : Int) * 256 ^ rest.length := by
  obtain ⟨h1, h2⟩ := fromBuffer_tail_bounds rest hrest
  unfold fromBuffer
  simp only [List.foldl_cons]
  rw [fromBuffer_foldl rest ((0:Int) * 256 + (b2 : Int))]
  have hp : (0:Int) < 256 ^ rest.length := by positivity
  have hc1 : (lo : Int) ≤ (b2 : Int) := by exact_mod_cast hlo
  have hc2 : (b2 : Int) + 1 ≤ (hi : Int) := by exact_mod_cast hhi
  constructor
  · nlinarith
  · nlinarith

theorem two_pow_eight_mul (m : Nat) : ((256:Int)) ^ m = 2 ^ (8 * m) := by
  rw [show (256:Int) = 2 ^ 8 by norm_num, ← pow_mul]

/-- Specification of `randBits(bitLength, true)`: with a well-formed entropy
buffer (`ceil(bitLength/8)` bytes below 256), the resulting integer occupies
exactly `bitLength` bits with its top bit set. -/
theorem randBits_force_bounds (n : Nat) (bytes : List Nat) (hn : 1 ≤ n)
    (hlen : bytes.length = (n + 7) / 8) (hb : ∀ x ∈ bytes, x < 256) :
    (2:Int) ^ (n - 1) ≤ fromBuffer (randBitsSyncModel n true bytes) ∧
      fromBuffer (randBitsSyncModel n true bytes) < (2:Int) ^ n := by
  cases bytes with
  | nil =>
    simp only [List.length_nil] at hlen
    omega
  | cons b0 rest =>
  have hrest : ∀ x ∈ rest, x < 256 := fun x hx => hb x (List.mem_cons_of_mem b0 hx)
  have hb0 : b0 < 256 := hb b0 (List.mem_cons_self b0 rest)
  have hlen2 : rest.length = (n + 7) / 8 - 1 := by
    simp only [List.length_cons] at hlen
    omega
  by_cases hr : n % 8 ≠ 0
  · have hmodel : randBitsSyncModel n true (b0 :: rest) =
        ((b0 &&& (2 ^ (n % 8) - 1)) ||| 2 ^ (n % 8 - 1)) :: rest := by
      simp [randBitsSyncModel, hr]
    rw [hmodel]
    have hm1 : (b0 &&& (2 ^ (n % 8) - 1)) < 2 ^ (n % 8) := by
      have h1 : (b0 &&& (2 ^ (n % 8) - 1)) ≤ 2 ^ (n % 8) - 1 := Nat.and_le_right
      have h2 : 0 < 2 ^ (n % 8) := Nat.pos_pow_of_pos _ (by omega)
      omega
    have hup : ((b0 &&& (2 ^ (n % 8) - 1)) ||| 2 ^ (n % 8 - 1)) < 2 ^ (n % 8) :=
      Nat.or_lt_two_pow hm1 (Nat.pow_lt_pow_right (by omega) (by omega))
    have hdn : 2 ^ (n % 8 - 1) ≤ ((b0 &&& (2 ^ (n % 8) - 1)) ||| 2 ^ (n % 8 - 1)) := by
      refine Nat.testBit_implies_ge ?_
      rw [Nat.testBit_or, Nat.testBit_two_pow_self, Bool.or_true]
    obtain ⟨hfb1, hfb2⟩ := fromBuffer_head_bounds _ rest _ _ hdn hup hrest
    constructor
    · calc (2:Int) ^ (n - 1) = 2 ^ (n % 8 - 1) * 2 ^ (8 * rest.length) := by
            rw [← pow_add]
            congr 1
            omega
      _ = ((2 ^ (n % 8 - 1) : Nat) : Int) * 256 ^ rest.length := by
            rw [two_pow_eight_mul, Nat.cast_pow, Nat.cast_ofNat]
      _ ≤ _ := hfb1
    · calc fromBuffer _ < ((2 ^ (n % 8) : Nat) : Int) * 256 ^ rest.length := hfb2
      _ = (2:Int) ^ (n % 8) * 2 ^ (8 * rest.length) := by
            rw [two_pow_eight_mul, Nat.cast_pow, Nat.cast_ofNat]
      _ = (2:Int) ^ n := by
            rw [← pow_add]
            congr 1
            omega
  · have hr0 : n % 8 = 0 := by omega
    have hmodel : randBitsSyncModel n true (b0 :: rest) = (b0 ||| 128) :: rest := by
      simp [randBitsSyncModel, hr0]
    rw [hmodel]
    have hup : (b0 ||| 128) < 2 ^ 8 :=
      Nat.or_lt_two_pow (by omega) (by norm_num)
    have hdn : 2 ^ 7 ≤ (b0 ||| 128) := by
      refine Nat.testBit_implies_ge ?_
      rw [show (128:Nat) = 2 ^ 7 by norm_num, Nat.testBit_or,
        Nat.testBit_two_pow_self, Bool.or_true]
    obtain ⟨hfb1, hfb2⟩ := fromBuffer_head_bounds _ rest _ _ hdn hup hrest
    constructor
    · calc (2:Int) ^ (n - 1) = 2 ^ 7 * 2 ^ (8 * rest.length) := by
            rw [← pow_add]
            congr 1
            omega
      _ = ((2 ^ 7 : Nat) : Int) * 256 ^ rest.length := by
            rw [two_pow_eight_mul, Nat.cast_pow, Nat.cast_ofNat]
      _ ≤ _ := hfb1
    · calc fromBuffer _ < ((2 ^ 8 : Nat) : Int) * 256 ^ rest.length := hfb2
      _ = (2:Int) ^ 8 * 2 ^ (8 * rest.length) := by
            rw [two_pow_eight_mul, Nat.cast_pow, Nat.cast_ofNat]
      _ = (2:Int) ^ n := by
            rw [← pow_add]
            congr 1
            omega

theorem primeSyncGo_cons (bl it : Int) (bytes : List Nat)
    (draws : List (List (List Nat))) (rest : List (List Nat × List (List (List Nat)))) :
    primeSyncGo bl it ((bytes, draws) :: rest) =
      (isProbablyPrimeModel (fromBuffer (randBitsSyncModel bl.toNat true bytes)) it draws >>=
        fun r =>
          match r with
          | some true => .ok (some (fromBuffer (randBitsSyncModel bl.toNat true bytes)))
          | some false => primeSyncGo bl it rest
          | none => .ok none) := rfl

/-- Specification of the candidate loop: every returned value was built by
`fromBuffer(randBits(n, true))` from one of the supplied trials and was
declared a probable prime by `_isProbablyPrime` with the requested iteration
count. -/
theorem primeSyncGo_some :
    ∀ (trials : List (List Nat × List (List (List Nat)))) (n : Nat) (it v : Int),
    1 ≤ n →
    (∀ t ∈ trials, t.1.length = (n + 7) / 8 ∧ ∀ x ∈ t.1, x < 256) →
    primeSyncGo (n : Int) it trials = .ok (some v) →
    (2:Int) ^ (n - 1) ≤ v ∧ v < (2:Int) ^ n ∧
      ∃ ds, isProbablyPrimeModel v it ds = .ok (some true) := by
  intro trials
  induction trials with
  | nil =>
    intro n it v hn hvalid h
    exact absurd h (by intro h2; cases h2)
  | cons t rest ih =>
    intro n it v hn hvalid h
    obtain ⟨bytes, draws⟩ := t
    rw [primeSyncGo_cons] at h
    rcases hr : isProbablyPrimeModel
        (fromBuffer (randBitsSyncModel (n : Int).toNat true bytes)) it draws with e | ob
    · rw [hr] at h
      cases h
    · rw [hr] at h
      match ob, h with
      | some true, h =>
        have hv : fromBuffer (randBitsSyncModel (n : Int).toNat true bytes) = v := by
          cases h
          rfl
        obtain ⟨hval1, hval2⟩ := hvalid (bytes, draws) (List.mem_cons_self _ rest)
        have htn : (n : Int).toNat = n := Int.toNat_natCast n
        rw [htn] at hv hr
        obtain ⟨hlow, hhigh⟩ := randBits_force_bounds n bytes hn hval1 hval2
        rw [hv] at hlow hhigh hr
        exact ⟨hlow, hhigh, draws, hr⟩
      | some false, h =>
        exact ih n it v hn (fun t2 ht2 => hvalid t2 (List.mem_cons_of_mem _ ht2)) h

/-- C2: whenever the prime generator returns a value `v` for a requested bit
length `n ≥ 1` and iteration count, `v` has bit length exactly `n` with the
top bit set (`2^(n-1) ≤ v < 2^n`) and `v` passed `_isProbablyPrime` with that
iteration count - both for the sequential generator (`primeSync` and the
no-worker fallback of `prime`) and for the value resolved by the parallel
coordinator from worker reports; a bit length `< 1` fails with
InvalidArgument before any candidate is drawn. -/
theorem c2_generatePrime_spec :
    (∀ (bl it : Int) trials, bl < 1 →
      primeSyncModel bl it trials = .error (.invalidArgument "bitLength MUST be > 0")) ∧
    (∀ (n : Nat) (it : Int) trials (v : Int), 1 ≤ n →
      (∀ t ∈ trials, t.1.length = (n + 7) / 8 ∧ ∀ x ∈ t.1, x < 256) →
      primeSyncModel (n : Int) it trials = .ok (some v) →
      (2:Int) ^ (n - 1) ≤ v ∧ v < (2:Int) ^ n ∧
        ∃ ds, isProbablyPrimeModel v it ds = .ok (some true)) ∧
    (∀ (n : Nat) (it : Int) (ws : List Nat) (msgs : List (Bool × Int)) (v : Int), 1 ≤ n →
      (∀ m ∈ msgs, ∃ bytes ds, bytes.length = (n + 7) / 8 ∧ (∀ x ∈ bytes, x < 256) ∧
        m.2 = fromBuffer (randBitsSyncModel n true bytes) ∧
        isProbablyPrimeModel m.2 it ds = .ok (some m.1)) →
      (runCoord ws msgs).result = some v →
      (2:Int) ^ (n - 1) ≤ v ∧ v < (2:Int) ^ n ∧
        ∃ ds, isProbablyPrimeModel v it ds = .ok (some true)) := by
  refine ⟨?_, ?_, ?_⟩
  · intro bl it trials hbl
    rw [primeSyncModel, if_pos hbl]
  · intro n it trials v hn hvalid h
    rw [primeSyncModel, if_neg (by exact_mod_cast (by omega : ¬((n:Int) < 1)))] at h
    exact primeSyncGo_some trials n it v hn hvalid h
  · intro n it ws msgs v hn honest hres
    rcases runFrom_result_some msgs _ v hres with h | ⟨m, hmem, hprime, hval⟩
    · cases h
    · obtain ⟨bytes, ds, hl, hbb, hform, hverdict⟩ := honest m hmem
      rw [hval] at hform hverdict
      rw [hprime] at hverdict
      obtain ⟨hlow, hhigh⟩ := randBits_force_bounds n bytes hn hl hbb
      rw [← hform] at hlow hhigh
      exact ⟨hlow, hhigh, ds, hverdict⟩

/-- Witness for C2: bit length 0 fails with InvalidArgument; for `n = 2` and
one trial with entropy byte 0 the sequential generator returns `v = 2`
(binary `10`, exactly 2 bits, top bit set, probable prime); and a coordinator
resolving an honest worker report also yields 2. -/
theorem c2_generatePrime_spec_witness :
    ((0:Int) < 1 ∧ primeSyncModel 0 16 [] =
      .error (.invalidArgument "bitLength MUST be > 0")) ∧
    (1 ≤ 2 ∧ primeSyncModel ((2:Nat) : Int) 1 [([0], [])] = .ok (some 2) ∧
      ((2:Int) ^ (2 - 1) ≤ 2 ∧ (2:Int) < 2 ^ 2 ∧
        ∃ ds, isProbablyPrimeModel 2 1 ds = .ok (some true))) ∧
    ((runCoord [0] [(true, 2)]).result = some 2 ∧
      ((2:Int) ^ (2 - 1) ≤ 2 ∧ (2:Int) < 2 ^ 2 ∧
        ∃ ds, isProbablyPrimeModel 2 1 ds = .ok (some true))) := by
  refine ⟨⟨by decide, c2_generatePrime_spec.1 0 16 [] (by decide)⟩,
    ⟨by decide, by decide, ?_⟩, ⟨by decide, ?_⟩⟩
  · exact c2_generatePrime_spec.2.1 2 1 [([0], [])] 2 (by decide)
      (by intro t ht; rw [List.mem_singleton] at ht; subst ht; exact ⟨by decide, by decide⟩)
      (by decide)
  · refine c2_generatePrime_spec.2.2 2 1 [0] [(true, 2)] 2 (by decide) ?_ (by decide)
    intro m hm
    rw [List.mem_singleton] at hm
    subst hm
    exact ⟨[0], [], by decide, by decide, by decide, by decide⟩

/-! ### Termination of the witness loop (C9) -/

theorem modPow_ok (b e n : Int) (he : 0 ≤ e) (hn : 0 < n) :
    ∃ v, modPow b e n = .ok v := by
  rw [modPow, if_neg (by omega)]
  by_cases h1 : n = 1
  · rw [if_pos h1]
    exact ⟨0, rfl⟩
  · rw [if_neg h1]
    simp only [if_neg (by omega : ¬e < 0)]
    exact ⟨_, rfl⟩

theorem mrInner_succ (w d z : Int) (rem : Nat) :
    mrInner w d z (rem + 1) =
      (modPow z 2 w >>= fun z2 =>
        if z2 = d then .ok (some z2)
        else if z2 = 1 then .ok none
        else mrInner w d z2 rem) := rfl

theorem mrInner_ok (w d : Int) (hw : 0 < w) :
    ∀ (rem : Nat) (z : Int), ∃ o, mrInner w d z rem = .ok o := by
  intro rem
  induction rem with
  | zero => intro z; exact ⟨some z, rfl⟩
  | succ r ih =>
    intro z
    obtain ⟨z2, hz2⟩ := modPow_ok z 2 w (by omega) hw
    have hstep : mrInner w d z (r + 1) =
        (if z2 = d then Except.ok (some z2) else if z2 = 1 then Except.ok none
          else mrInner w d z2 r) := by
      rw [mrInner_succ, hz2]
      rfl
    rw [hstep]
    by_cases h1 : z2 = d
    · exact ⟨some z2, by rw [if_pos h1]⟩
    · by_cases h2 : z2 = 1
      · exact ⟨none, by rw [if_neg h1, if_pos h2]⟩
      · obtain ⟨o, ho⟩ := ih z2
        exact ⟨o, by rw [if_neg h1, if_neg h2]; exact ho⟩

theorem mrOuter_cons (w d m : Int) (a : Nat) (it : Int) (dr : List (List Nat))
    (rest : List (List (List Nat))) :
    mrOuter w d m a it (dr :: rest) =
      (randBetweenModel d 2 dr >>= fun ob =>
        match ob with
        | none => .ok none
        | some b =>
          modPow b m w >>= fun z =>
            if z = 1 ∨ z = d then
              if it - 1 ≠ 0 then mrOuter w d m a (it - 1) rest else .ok (some true)
            else
              mrInner w d z (a - 1) >>= fun oz =>
                match oz with
                | none => .ok (some false)
                | some z2 =>
                  if z2 ≠ d then .ok (some false)
                  else if it - 1 ≠ 0 then mrOuter w d m a (it - 1) rest
                  else .ok (some true)) := rfl

/-- With at least one iteration requested, a successful rejection-sampling
draw available for every round, and a valid modulus, the witness do-loop
reaches a verdict within `iterations` rounds. -/
theorem mrOuter_some :
    ∀ (draws : List (List (List Nat))) (w d m : Int) (a : Nat) (it : Int),
    1 < w → 0 ≤ m → 1 ≤ it → it.toNat ≤ draws.length →
    (∀ dr ∈ draws, ∃ b, randBetweenModel d 2 dr = .ok (some b)) →
    ∃ r, mrOuter w d m a it draws = .ok (some r) := by
  intro draws
  induction draws with
  | nil =>
    intro w d m a it hw hm hit hlen hdr
    simp only [List.length_nil] at hlen
    omega
  | cons dr rest ih =>
    intro w d m a it hw hm hit hlen hdr
    obtain ⟨b, hb⟩ := hdr dr (List.mem_cons_self dr rest)
    obtain ⟨z, hz⟩ := modPow_ok b m w hm (by omega)
    have hstep : mrOuter w d m a it (dr :: rest) =
        (if z = 1 ∨ z = d then
          if it - 1 ≠ 0 then mrOuter w d m a (it - 1) rest else .ok (some true)
        else
          mrInner w d z (a - 1) >>= fun oz =>
            match oz with
            | none => .ok (some false)
            | some z2 =>
              if z2 ≠ d then .ok (some false)
              else if it - 1 ≠ 0 then mrOuter w d m a (it - 1) rest
              else .ok (some true)) := by
      rw [mrOuter_cons, hb]
      show (modPow b m w >>= _) = _
      rw [hz]
      rfl
    have htail : ∃ r, (if it - 1 ≠ 0 then mrOuter w d m a (it - 1) rest
        else Except.ok (some true)) = .ok (some r) := by
      by_cases hit1 : it - 1 ≠ 0
      · rw [if_pos hit1]
        refine ih w d m a (it - 1) hw hm (by omega) (by simp at hlen; omega) ?_
        exact fun dr2 h2 => hdr dr2 (List.mem_cons_of_mem dr h2)
      · rw [if_neg hit1]
        exact ⟨true, rfl⟩
    rw [hstep]
    by_cases hz1 : z = 1 ∨ z = d
    · rw [if_pos hz1]
      exact htail
    · rw [if_neg hz1]
      obtain ⟨o, ho⟩ := mrInner_ok w d (by omega) (a - 1) z
      rw [ho]
      match o with
      | none => exact ⟨false, rfl⟩
      | some z2 =>
        have hstep2 : (Except.ok (some z2) >>= fun oz =>
            match oz with
            | none => Except.ok (some false)
            | some z3 =>
              if z3 ≠ d then Except.ok (some false)
              else if it - 1 ≠ 0 then mrOuter w d m a (it - 1) rest
              else Except.ok (some true)) =
            (if z2 ≠ d then (Except.ok (some false) : Except BError (Option Bool))
              else if it - 1 ≠ 0 then mrOuter w d m a (it - 1) rest
              else Except.ok (some true)) := rfl
        rw [hstep2]
        by_cases hz2 : z2 ≠ d
        · exact ⟨false, by rw [if_pos hz2]⟩
        · obtain ⟨r, hr⟩ := htail
          exact ⟨r, by rw [if_neg hz2]; exact hr⟩

/-- Prefilter-to-loop reduction: past the parity, trivial and trial-division
prefilters, `_isProbablyPrime` is the witness do-loop on `w - 1 = 2^a * m`. -/
theorem isProbablyPrime_terminates (w it : Int) (draws : List (List (List Nat)))
    (hw : 0 ≤ w) (hit : 1 ≤ it) (hlen : it.toNat ≤ draws.length)
    (hdr : ∀ dr ∈ draws, ∃ b, randBetweenModel (w - 1) 2 dr = .ok (some b)) :
    ∃ r, isProbablyPrimeModel w it draws = .ok (some r) := by
  by_cases h2 : w = 2
  · exact ⟨true, by rw [isProbablyPrimeModel, if_pos h2]⟩
  · by_cases heven : w % 2 = 0 ∨ w = 1
    · exact ⟨false, by rw [isProbablyPrimeModel, if_neg h2, if_pos heven]⟩
    · rcases htd : trialDivision w firstPrimes with _ | r
      · have hw3 : 3 ≤ w := by
          push_neg at heven
          have hmod := Int.emod_nonneg w (by omega : (2:Int) ≠ 0)
          have hmod2 := Int.emod_lt_of_pos w (by omega : (0:Int) < 2)
          have hdvd : w % 2 = 1 := by omega
          omega
        have hstep : isProbablyPrimeModel w it draws =
            mrOuter w (w - 1)
              (Int.tdiv (w - 1) (2 ^ twoAdicGo ((w - 1).toNat + 1) (w - 1).toNat 0))
              (twoAdicGo ((w - 1).toNat + 1) (w - 1).toNat 0) it draws := by
          rw [isProbablyPrimeModel, if_neg h2, if_neg heven, htd]
        rw [hstep]
        exact mrOuter_some draws w (w - 1) _ _ it (by omega)
          (Int.tdiv_nonneg (by omega) (by positivity)) hit hlen hdr
      · exact ⟨r, by rw [isProbablyPrimeModel, if_neg h2, if_neg heven, htd]⟩

set_option maxRecDepth 40000 in
/-- With a non-positive iteration counter the post-decrement exit test
`--iterations !== 0` never fires on a candidate whose rounds all pass:
`w = 1601` is prime (every witness round passes) and each supplied round
draws the accepted witness `b = 2`, so no number of rounds produces a
verdict. -/
theorem mrOuter_1601_stuck :
    ∀ (k : Nat) (it : Int), it ≤ 0 →
    mrOuter 1601 1600 25 6 it (List.replicate k [[0, 0]]) = .ok none := by
  intro k
  induction k with
  | zero => intro it hit; rfl
  | succ k2 ih =>
    intro it hit
    have hstep : mrOuter 1601 1600 25 6 it (List.replicate (k2 + 1) [[0, 0]]) =
        (if it - 1 ≠ 0 then mrOuter 1601 1600 25 6 (it - 1) (List.replicate k2 [[0, 0]])
          else .ok (some true)) := rfl
    rw [hstep, if_pos (by omega : it - 1 ≠ 0)]
    exact ih (it - 1) (by omega)

set_option maxRecDepth 40000 in
/-- C9: for every candidate `w ≥ 0` and iteration count `≥ 1`, the primality
test reaches a verdict, its witness do-loop consuming at most `iterations`
round draws (provided each round's rejection sampling yields an accepted
draw); and the hypothesis `iterations ≥ 1` is necessary: starting from
`iterations = 0` the post-decrement exit test never becomes false, so on the
prime candidate 1601 no verdict is ever reached however many rounds run. -/
theorem c9_witness_loop_termination :
    (∀ (w it : Int) (draws : List (List (List Nat))), 0 ≤ w → 1 ≤ it →
      it.toNat ≤ draws.length →
      (∀ dr ∈ draws, ∃ b, randBetweenModel (w - 1) 2 dr = .ok (some b)) →
      ∃ r, isProbablyPrimeModel w it draws = .ok (some r)) ∧
    (∀ k : Nat, isProbablyPrimeModel 1601 0 (List.replicate k [[0, 0]]) = .ok none) := by
  constructor
  · exact fun w it draws hw hit hlen hdr =>
      isProbablyPrime_terminates w it draws hw hit hlen hdr
  · intro k
    have hpre : isProbablyPrimeModel 1601 0 (List.replicate k [[0, 0]]) =
        mrOuter 1601 1600 25 6 0 (List.replicate k [[0, 0]]) := rfl
    rw [hpre]
    exact mrOuter_1601_stuck k 0 (le_refl 0)

/-- Witness for C9 at `w = 9`, one iteration, one round draw (entropy byte 3,
giving the accepted witness 5): the test reaches a verdict. -/
theorem c9_witness_loop_termination_witness :
    ((0:Int) ≤ 9 ∧ (1:Int) ≤ 1 ∧
      ((1:Int)).toNat ≤ ([[[3]]] : List (List (List Nat))).length ∧
      (∃ b, randBetweenModel (9 - 1) 2 [[3]] = .ok (some b))) ∧
    (∃ r, isProbablyPrimeModel 9 1 [[[3]]] = .ok (some r)) := by
  refine ⟨⟨by decide, by decide, by decide, ⟨5, by decide⟩⟩, ?_⟩
  refine c9_witness_loop_termination.1 9 1 [[[3]]] (by decide) (by decide) (by decide) ?_
  intro dr hdr
  rw [List.mem_singleton] at hdr
  subst hdr
  exact ⟨5, by decide⟩

end BCU
